import Mathlib

/-!
Shallow embedding of the `ChunkUploader` class of `nextjs-chunk-upload-action`
(`src/unnamed/part_001`).

The uploader is an asynchronous sequential state machine.  We embed it as pure
functions over an explicit state record, threading:
  * a transport schedule `Sched : Nat → Option Nat` giving, for the n-th call of
    `onChunkUpload`, either success (`none`) or rejection with an uninterpreted error
    value (`some e`; error values are modelled as `Nat` since the source treats
    them as `unknown`);
  * an interleaving environment `Env : Nat → Bool` saying at which await
    (suspension) points the external caller invokes `pause()`.  Of the four
    public operations, `pause` is the only one that can change state while the
    status is `uploading`/`pausing` (`start` needs `pending`, `resume` needs
    `paused`/`error`, `abort` needs `paused`), so a pause-only environment
    covers every external interleaving with a running chunk loop;
  * a trace of observable events: transport calls (with the fields the source
    puts in the `FormData`), completed `setTimeout` waits, and every callback
    invocation.  `statusChange` events carry a snapshot of the `_error` field at
    the moment `onStatusChange` fires, since the callback can read it through
    the uploader reference.  `pauseCall b` records that the environment invoked
    `pause()` at a suspension point and got back `b`.

Suspension points of the source (`await` sites) are numbered in order: each
transport call is one suspension point and each backoff `wait` is one.
-/

deriving instance DecidableEq for Except

namespace ChunkUpload

/-- Status type `ChunkUploaderStatus` from the source. -/
inductive ChunkUploaderStatus where
  | pending
  | uploading
  | pausing
  | paused
  | aborted
  | complete
  | error
deriving DecidableEq, Repr

/-- Observable events: transport calls, completed waits, and callback
invocations, in program order. -/
inductive Event where
  | chunkUpload (offset length retry total : Nat) (isLast : Bool) (lo hi : Nat)
  | waited (ms : Nat)
  | chunkComplete (bytesAccepted bytesTotal : Nat)
  | successCb
  | errorCb (e : Nat)
  | pausedCb
  | abortedCb
  | statusChange (old : Option ChunkUploaderStatus) (next : ChunkUploaderStatus)
      (errSnap : Option Nat)
  | pauseCall (result : Bool)
deriving DecidableEq, Repr

/-- The mutable fields of a `ChunkUploader` instance (`_status`, `_position`,
`_isUploadingLastChunk`, `_error`) together with the immutable configuration
(`_file.size`, `_chunkBytes`, `_retryDelays`). -/
structure ChunkUploader where
  status : ChunkUploaderStatus
  position : Nat
  isUploadingLastChunk : Bool
  error : Option Nat
  fileSize : Nat
  chunkBytes : Nat
  retryDelays : List Nat
deriving DecidableEq, Repr

/-- Transport schedule: outcome of the n-th `onChunkUpload` call.
`none` = the returned promise resolves; `some e` = it rejects with `e`. -/
abbrev Sched := Nat → Option Nat

/-- Pause-interleaving environment: `env sp = true` means the external caller
invokes `pause()` while the loop is suspended at suspension point `sp`. -/
abbrev Env := Nat → Bool

/-- The protected `status` setter: skips when unchanged, otherwise assigns and
fires `onStatusChange(oldValue, value)` (which can observe `_error`). -/
def setStatus (v : ChunkUploaderStatus) (s : ChunkUploader) :
    ChunkUploader × List Event :=
  if s.status = v then (s, [])
  else ({ s with status := v }, [Event.statusChange (some s.status) v s.error])

/-- Method `pause()`: returns `false` unless status is `uploading` and the last chunk
is not being uploaded; otherwise transitions to `pausing`. -/
def ChunkUploader.pause (s : ChunkUploader) :
    Bool × ChunkUploader × List Event :=
  if s.status ≠ ChunkUploaderStatus.uploading ∨ s.isUploadingLastChunk then
    (false, s, [])
  else
    let p := setStatus ChunkUploaderStatus.pausing s
    (true, p.1, p.2)

/-- Method `abort()`: returns `false` unless status is `paused`; otherwise transitions
to `aborted` and invokes `onAborted()` (which takes no arguments). -/
def ChunkUploader.abort (s : ChunkUploader) :
    Bool × ChunkUploader × List Event :=
  if s.status ≠ ChunkUploaderStatus.paused then
    (false, s, [])
  else
    let p := setStatus ChunkUploaderStatus.aborted s
    (true, p.1, p.2 ++ [Event.abortedCb])

/-- One suspension point: if the environment invokes `pause()` here, apply it
and record the call and its boolean result. -/
def atSP (env : Env) (sp : Nat) (s : ChunkUploader) :
    ChunkUploader × List Event :=
  if env sp then
    let p := ChunkUploader.pause s
    (p.2.1, p.2.2 ++ [Event.pauseCall p.1])
  else (s, [])

/-- The `wait(ms)` helper: a plain `setTimeout` promise.  It always runs to
completion (nothing in the source can cancel or race it); `Event.waited ms`
marks its completion. -/
def wait (ms : Nat) : List Event := [Event.waited ms]

/-- How the `for (retry = 0; retry <= retryDelays.length; ...)` loop inside
`_uploadNextChunk` exits: `break` on success, `return false` when a pause is
observed after a failure, or a `throw` after retries are exhausted. -/
inductive ALExit where
  | broke
  | returnedFalse
  | threw (e : Nat)
deriving DecidableEq, Repr

/-- Result of the retry loop (and of `_uploadNextChunk` / the outer loop):
exit information, final state, emitted events, and the next transport-call
and suspension-point indices. -/
structure ALOut where
  exit : ALExit
  s : ChunkUploader
  tr : List Event
  call : Nat
  sp : Nat
deriving DecidableEq, Repr

/-- The retry `for`-loop of `_uploadNextChunk`, one iteration per element of
`delays` plus the final iteration with no delay left.  Mirrors the source's
`try`/`catch`/`finally`: the flag `_isUploadingLastChunk` is set to
`isLast` at the top of `try` and reset by `finally` only when control leaves
the `try`/`catch` — in particular it is still set during the backoff `wait`,
which the `catch` block performs. -/
def attemptLoop (sched : Sched) (env : Env) (isLast : Bool) (lo hi : Nat) :
    Nat → List Nat → ChunkUploader → Nat → Nat → ALOut
  | r, delays, s, call, sp =>
    -- try { this._isUploadingLastChunk = isLastChunk; ... }
    let s1 := { s with isUploadingLastChunk := isLast }
    -- FormData: offset = _position, length = blob.size, retry, total, isLastChunk
    let ev0 := [Event.chunkUpload s1.position (hi - lo) r s1.fileSize isLast lo hi]
    let o := sched call
    -- await this._onChunkUpload(...): a suspension point
    let p1 := atSP env sp s1
    match o with
    | none =>
      -- success: break, then finally clears the flag
      ⟨ALExit.broke, { p1.1 with isUploadingLastChunk := false },
        ev0 ++ p1.2, call + 1, sp + 1⟩
    | some e =>
      if p1.1.status = ChunkUploaderStatus.pausing then
        -- catch: if (this.status === 'pausing') return false  (finally runs)
        ⟨ALExit.returnedFalse, { p1.1 with isUploadingLastChunk := false },
          ev0 ++ p1.2, call + 1, sp + 1⟩
      else
        match delays with
        | d :: rest =>
          -- catch: await wait(retryDelays[retry]) — a suspension point; the
          -- flag is still set here (finally has not run yet)
          let p2 := atSP env (sp + 1) p1.1
          -- finally clears the flag, then the next iteration begins
          let s4 := { p2.1 with isUploadingLastChunk := false }
          let k := attemptLoop sched env isLast lo hi (r + 1) rest s4 (call + 1) (sp + 2)
          ⟨k.exit, k.s, ev0 ++ p1.2 ++ p2.2 ++ wait d ++ k.tr, k.call, k.sp⟩
        | [] =>
          -- catch: status = 'error'; _error = error; onError(error); throw
          let p3 := setStatus ChunkUploaderStatus.error p1.1
          let s4 := { p3.1 with error := some e, isUploadingLastChunk := false }
          ⟨ALExit.threw e, s4, ev0 ++ p1.2 ++ p3.2 ++ [Event.errorCb e],
            call + 1, sp + 1⟩

/-- Method `_uploadNextChunk`: slices `[position, endPosition)` once, runs the retry
loop, and on `break` commits the position, possibly transitions to `complete`,
and fires `onChunkComplete` / `onSuccess`.  The result is `Except.ok
isLastChunk` on normal return, `Except.ok false` when a pause aborted the
retries, `Except.error e` for the re-thrown transport error. -/
def uploadNextChunk (sched : Sched) (env : Env) (s : ChunkUploader)
    (call sp : Nat) : Except Nat Bool × ChunkUploader × List Event × Nat × Nat :=
  let isLast : Bool := decide (s.fileSize ≤ s.position + s.chunkBytes)
  let endPos := if isLast then s.fileSize else s.position + s.chunkBytes
  let a := attemptLoop sched env isLast s.position endPos 0 s.retryDelays s call sp
  match a.exit with
  | ALExit.threw e => (Except.error e, a.s, a.tr, a.call, a.sp)
  | ALExit.returnedFalse => (Except.ok false, a.s, a.tr, a.call, a.sp)
  | ALExit.broke =>
    let s1 := { a.s with position := endPos }
    let p2 := if isLast then setStatus ChunkUploaderStatus.complete s1 else (s1, [])
    let tr3 := if isLast then [Event.successCb] else []
    (Except.ok isLast, p2.1,
      a.tr ++ p2.2 ++ [Event.chunkComplete endPos s.fileSize] ++ tr3, a.call, a.sp)

/-- Result of the outer chunk loop: its settlement (`Except.error e` when a
re-thrown transport error rejects the loop's promise), final state, trace, and
counters. -/
structure LoopOut where
  res : Except Nat Unit
  s : ChunkUploader
  tr : List Event
  call : Nat
  sp : Nat
deriving DecidableEq, Repr

/-- Method `_startUploadFromCurrentPosition`: `while (!isLastChunkUploaded)` keep
uploading; after each chunk, honor a pending pause (`pausing → paused`,
`onPaused()`).  Fuel-indexed to stay total; `none` means the fuel ran out
before the loop settled. -/
def startUploadFromCurrentPosition (sched : Sched) (env : Env) :
    Nat → ChunkUploader → Nat → Nat → Option LoopOut
  | 0, _, _, _ => none
  | fuel + 1, s, call, sp =>
    let u := uploadNextChunk sched env s call sp
    match u.1 with
    | Except.error e => some ⟨Except.error e, u.2.1, u.2.2.1, u.2.2.2.1, u.2.2.2.2⟩
    | Except.ok isLastUploaded =>
      let s1 := u.2.1
      if s1.status = ChunkUploaderStatus.pausing then
        let p := setStatus ChunkUploaderStatus.paused s1
        some ⟨Except.ok (), p.1, u.2.2.1 ++ p.2 ++ [Event.pausedCb],
          u.2.2.2.1, u.2.2.2.2⟩
      else if isLastUploaded then
        some ⟨Except.ok (), s1, u.2.2.1, u.2.2.2.1, u.2.2.2.2⟩
      else
        match startUploadFromCurrentPosition sched env fuel s1 u.2.2.2.1 u.2.2.2.2 with
        | none => none
        | some o => some ⟨o.res, o.s, u.2.2.1 ++ o.tr, o.call, o.sp⟩

/-- Method `start()`: only from `pending`; sets `uploading`, clears `_error`, and
launches `_startUploadFromCurrentPosition().catch(() => {})` — the loop's
settlement (`o.res`) is discarded whether it resolved or rejected, so no
internal failure reaches the caller. -/
def ChunkUploader.start (sched : Sched) (env : Env) (fuel : Nat)
    (s : ChunkUploader) : Bool × ChunkUploader × List Event :=
  if s.status = ChunkUploaderStatus.pending then
    let p1 := setStatus ChunkUploaderStatus.uploading s
    let s2 := { p1.1 with error := none }
    match startUploadFromCurrentPosition sched env fuel s2 0 0 with
    | none => (true, s2, p1.2)
    | some o => (true, o.s, p1.2 ++ o.tr)
  else (false, s, [])

/-- Method `resume()`: only from `paused` or `error`; sets `uploading`, clears
`_error`, and launches the loop exactly as `start()` does, with the same
`.catch(() => {})`. -/
def ChunkUploader.resume (sched : Sched) (env : Env) (fuel : Nat)
    (s : ChunkUploader) : Bool × ChunkUploader × List Event :=
  if s.status = ChunkUploaderStatus.paused ∨ s.status = ChunkUploaderStatus.error then
    let p1 := setStatus ChunkUploaderStatus.uploading s
    let s2 := { p1.1 with error := none }
    match startUploadFromCurrentPosition sched env fuel s2 0 0 with
    | none => (true, s2, p1.2)
    | some o => (true, o.s, p1.2 ++ o.tr)
  else (false, s, [])

/-- Transport schedule on which every call succeeds. -/
def allOk : Sched := fun _ => none

/-- Environment that never invokes `pause()`. -/
def noPause : Env := fun _ => false

/-- Schedule failing call `n` with error `es[n]` while `n < es.length`, then
succeeding. -/
def failThen (es : List Nat) : Sched := fun n => es[n]?

/-- Environment invoking `pause()` exactly at suspension point `k`. -/
def pauseAt (k : Nat) : Env := fun sp => sp == k

/-- Expected trace of a chunk whose first `evs.length` transport attempts fail
(no pause pending): one `chunkUpload` per attempt, with the retry counter
increasing from `r`, followed by the completed backoff wait for the
corresponding configured delay. -/
def failTrace (pos len total : Nat) (isLast : Bool) (lo hi : Nat) :
    Nat → List (Nat × Nat) → List Event
  | _, [] => []
  | r, (_, d) :: tl =>
    Event.chunkUpload pos len r total isLast lo hi :: Event.waited d ::
      failTrace pos len total isLast lo hi (r + 1) tl

/-- Expected trace and chunk count of an uninterrupted all-success run of the
chunk loop from position `p`. -/
def okRun (c total : Nat) : Nat → Nat → List Event × Nat
  | _, 0 => ([], 0)
  | p, fuel + 1 =>
    if total ≤ p + c then
      ([Event.chunkUpload p (total - p) 0 total true p total,
        Event.statusChange (some ChunkUploaderStatus.uploading)
          ChunkUploaderStatus.complete none,
        Event.chunkComplete total total, Event.successCb], 1)
    else
      let k := okRun c total (p + c) fuel
      (Event.chunkUpload p c 0 total false p (p + c) ::
        Event.chunkComplete (p + c) total :: k.1, k.2 + 1)

/-- The transport calls of an uninterrupted all-success run from position `p`:
offsets `p, p + c, p + 2c, ...`, full-size chunks except the final one. -/
def okUps (c total : Nat) : Nat → Nat → List Event
  | _, 0 => []
  | p, fuel + 1 =>
    if total ≤ p + c then
      [Event.chunkUpload p (total - p) 0 total true p total]
    else
      Event.chunkUpload p c 0 total false p (p + c) :: okUps c total (p + c) fuel

def isUpload : Event → Bool
  | Event.chunkUpload _ _ _ _ _ _ _ => true
  | _ => false

def isWaited : Event → Bool
  | Event.waited _ => true
  | _ => false

def isStatusChange : Event → Bool
  | Event.statusChange _ _ _ => true
  | _ => false

def isErrorCb : Event → Bool
  | Event.errorCb _ => true
  | _ => false

def offsetOf : Event → Nat
  | Event.chunkUpload o _ _ _ _ _ _ => o
  | _ => 0

def lengthOf : Event → Nat
  | Event.chunkUpload _ l _ _ _ _ _ => l
  | _ => 0

def isLastOf : Event → Bool
  | Event.chunkUpload _ _ _ _ b _ _ => b
  | _ => false

/-- The given (final) transport call carries `isLastChunk = true` and
`offset + length = total`. -/
def lastCallOk (total : Nat) : Option Event → Bool
  | some ev => isLastOf ev && decide (offsetOf ev + lengthOf ev = total)
  | none => false

/-- The `lastError` invariant: `_error` is set if and only if the status is
`error`. -/
def errInv (s : ChunkUploader) : Bool :=
  s.error.isSome == decide (s.status = ChunkUploaderStatus.error)

/-- Invariant `errInv` on the final state of a (possibly fuel-exhausted) loop run. -/
def invOut : Option LoopOut → Bool
  | none => true
  | some o => errInv o.s

lemma attemptLoop_fail_prefix (sched : Sched) (isLast : Bool) (lo hi : Nat) :
    ∀ (evs : List (Nat × Nat)) (ds2 : List Nat) (r call sp : Nat)
      (s : ChunkUploader),
      s.status = ChunkUploaderStatus.uploading →
      (∀ i, i < evs.length → sched (call + i) = (evs[i]?).map Prod.fst) →
      sched (call + evs.length) = none →
      attemptLoop sched noPause isLast lo hi r (evs.map Prod.snd ++ ds2) s call sp =
        ⟨ALExit.broke, { s with isUploadingLastChunk := false },
          failTrace s.position (hi - lo) s.fileSize isLast lo hi r evs ++
            [Event.chunkUpload s.position (hi - lo) (r + evs.length) s.fileSize
              isLast lo hi],
          call + evs.length + 1, sp + 2 * evs.length + 1⟩ := by
  intro evs
  induction evs with
  | nil =>
    intro ds2 r call sp s hst hpre hsucc
    simp only [List.length_nil, Nat.add_zero] at hsucc
    rw [List.map_nil, List.nil_append, attemptLoop]
    simp [atSP, noPause, hsucc, failTrace]
  | cons ed tl ih =>
    intro ds2 r call sp s hst hpre hsucc
    obtain ⟨e, d⟩ := ed
    have h0 : sched call = some e := by
      have := hpre 0 (by simp)
      simpa using this
    have hrec := ih ds2 (r + 1) (call + 1) (sp + 2)
      { s with isUploadingLastChunk := false }
      (by simp [hst])
      (by
        intro i hi
        have := hpre (i + 1) (by simpa using Nat.succ_lt_succ hi)
        simpa [Nat.add_assoc, Nat.add_comm 1 i] using this)
      (by
        have h1 : call + (tl.length + 1) = call + 1 + tl.length := by omega
        simpa [h1] using hsucc)
    rw [List.map_cons, List.cons_append, attemptLoop]
    simp only [hst] at hrec
    simp only [h0, atSP, noPause, Bool.false_eq_true, if_false, hst]
    rw [hrec]
    simp [failTrace, wait, List.append_assoc]
    refine ⟨by simp [Nat.add_assoc, Nat.add_comm 1 tl.length], by omega, by omega⟩

lemma attemptLoop_exhaust (sched : Sched) (isLast : Bool) (lo hi : Nat) :
    ∀ (evs : List (Nat × Nat)) (e : Nat) (r call sp : Nat)
      (s : ChunkUploader),
      s.status = ChunkUploaderStatus.uploading →
      (∀ i, i < evs.length → sched (call + i) = (evs[i]?).map Prod.fst) →
      sched (call + evs.length) = some e →
      attemptLoop sched noPause isLast lo hi r (evs.map Prod.snd) s call sp =
        ⟨ALExit.threw e,
          { s with
              status := ChunkUploaderStatus.error
              error := some e
              isUploadingLastChunk := false },
          failTrace s.position (hi - lo) s.fileSize isLast lo hi r evs ++
            [Event.chunkUpload s.position (hi - lo) (r + evs.length) s.fileSize
              isLast lo hi,
             Event.statusChange (some ChunkUploaderStatus.uploading)
               ChunkUploaderStatus.error s.error,
             Event.errorCb e],
          call + evs.length + 1, sp + 2 * evs.length + 1⟩ := by
  intro evs
  induction evs with
  | nil =>
    intro e r call sp s hst hpre hfail
    simp only [List.length_nil, Nat.add_zero] at hfail
    rw [List.map_nil, attemptLoop]
    simp [atSP, noPause, hfail, failTrace, hst, setStatus]
  | cons ed tl ih =>
    intro e r call sp s hst hpre hfail
    obtain ⟨e0, d⟩ := ed
    have h0 : sched call = some e0 := by
      have := hpre 0 (by simp)
      simpa using this
    have hrec := ih e (r + 1) (call + 1) (sp + 2)
      { s with isUploadingLastChunk := false }
      (by simp [hst])
      (by
        intro i hi
        have := hpre (i + 1) (by simpa using Nat.succ_lt_succ hi)
        simpa [Nat.add_assoc, Nat.add_comm 1 i] using this)
      (by
        have h1 : call + (tl.length + 1) = call + 1 + tl.length := by omega
        simpa [h1] using hfail)
    rw [List.map_cons, attemptLoop]
    simp only [hst] at hrec
    simp only [h0, atSP, noPause, Bool.false_eq_true, if_false, hst]
    rw [hrec]
    simp [failTrace, wait, List.append_assoc, hst]
    refine ⟨by simp [Nat.add_assoc, Nat.add_comm 1 tl.length], by omega, by omega⟩

lemma getLast?_cons_of_tail_ne_nil {α : Type} (a : α) (l : List α)
    (h : l ≠ []) : (a :: l).getLast? = l.getLast? := by
  cases l with
  | nil => cases h rfl
  | cons b t => simp [List.getLast?_cons_cons]

/-- An uninterrupted all-success run of `_startUploadFromCurrentPosition` from
position `p` uploads chunk after chunk and ends `complete` at `position =
fileSize`, with the trace predicted by `okRun`. -/
lemma startLoop_ok :
    ∀ (fuel p call sp : Nat) (s : ChunkUploader),
      s.status = ChunkUploaderStatus.uploading → s.error = none →
      s.position = p → 0 < s.chunkBytes → 0 < fuel →
      s.fileSize ≤ p + fuel * s.chunkBytes →
      startUploadFromCurrentPosition allOk noPause fuel s call sp =
        some ⟨Except.ok (),
          { s with
              status := ChunkUploaderStatus.complete
              position := s.fileSize
              isUploadingLastChunk := false },
          (okRun s.chunkBytes s.fileSize p fuel).1,
          call + (okRun s.chunkBytes s.fileSize p fuel).2,
          sp + (okRun s.chunkBytes s.fileSize p fuel).2⟩ := by
  intro fuel
  induction fuel with
  | zero => intro p call sp s _ _ _ _ hf; omega
  | succ n ih =>
    intro p call sp s hst herr hp hc _ hbound
    have hfirst := attemptLoop_fail_prefix allOk
      (decide (s.fileSize ≤ s.position + s.chunkBytes)) s.position
      (if decide (s.fileSize ≤ s.position + s.chunkBytes) = true then s.fileSize
        else s.position + s.chunkBytes)
      [] s.retryDelays 0 call sp s hst (by simp) (by simp [allOk])
    simp only [List.map_nil, List.nil_append, List.length_nil, Nat.add_zero,
      Nat.mul_zero, failTrace] at hfirst
    by_cases h : s.fileSize ≤ s.position + s.chunkBytes
    · -- this is the final chunk
      have hu : uploadNextChunk allOk noPause s call sp =
          (Except.ok true,
            { s with
                status := ChunkUploaderStatus.complete
                position := s.fileSize
                isUploadingLastChunk := false },
            [Event.chunkUpload s.position (s.fileSize - s.position) 0 s.fileSize
              true s.position s.fileSize,
             Event.statusChange (some ChunkUploaderStatus.uploading)
               ChunkUploaderStatus.complete none,
             Event.chunkComplete s.fileSize s.fileSize, Event.successCb],
            call + 1, sp + 1) := by
        simp only [uploadNextChunk]
        rw [hfirst]
        simp [h, hst, herr, setStatus]
      rw [startUploadFromCurrentPosition]
      simp only [hu]
      rw [okRun, if_pos (by omega : s.fileSize ≤ p + s.chunkBytes)]
      simp [hp]
    · -- a full-size middle chunk, then recurse
      have hmul : (n + 1) * s.chunkBytes = n * s.chunkBytes + s.chunkBytes :=
        Nat.succ_mul n s.chunkBytes
      have hn : 0 < n := by
        rcases Nat.eq_zero_or_pos n with h0 | h0
        · subst h0; rw [hmul] at hbound; omega
        · exact h0
      have hu : uploadNextChunk allOk noPause s call sp =
          (Except.ok false,
            { s with
                position := s.position + s.chunkBytes
                isUploadingLastChunk := false },
            [Event.chunkUpload s.position s.chunkBytes 0 s.fileSize false
              s.position (s.position + s.chunkBytes),
             Event.chunkComplete (s.position + s.chunkBytes) s.fileSize],
            call + 1, sp + 1) := by
        simp only [uploadNextChunk]
        rw [hfirst]
        simp [h, Nat.add_sub_cancel_left]
      have hb2 : s.fileSize ≤ p + s.chunkBytes + n * s.chunkBytes := by
        rw [hmul] at hbound; omega
      have hrec := ih (p + s.chunkBytes) (call + 1) (sp + 1)
        { s with
            position := s.position + s.chunkBytes
            isUploadingLastChunk := false }
        (by simp [hst]) (by simp [herr]) (by simp [hp]) (by simpa using hc) hn
        (by simpa using hb2)
      simp only [hst] at hrec
      rw [startUploadFromCurrentPosition]
      simp only [hu]
      rw [okRun, if_neg (by omega : ¬ s.fileSize ≤ p + s.chunkBytes)]
      simp only [hst, reduceCtorEq, if_false, Bool.false_eq_true, reduceIte]
      rw [hrec]
      simp [hp, List.append_assoc]
      constructor <;> omega

lemma okRun_filter_upload (c total : Nat) :
    ∀ (fuel p : Nat),
      ((okRun c total p fuel).1).filter isUpload = okUps c total p fuel := by
  intro fuel
  induction fuel with
  | zero => intro p; simp [okRun, okUps]
  | succ n ih =>
    intro p
    rw [okRun, okUps]
    by_cases h : total ≤ p + c
    · simp [h, isUpload]
    · simp [h, isUpload, ih (p + c)]

lemma okUps_head_offset (c total : Nat) (fuel p : Nat) :
    (okUps c total p (fuel + 1)).head?.map offsetOf = some p := by
  rw [okUps]
  by_cases h : total ≤ p + c <;> simp [h, offsetOf]

lemma okUps_all_ge (c total : Nat) :
    ∀ (fuel p q : Nat), q ≤ p →
      (okUps c total p fuel).all (fun ev => decide (q ≤ offsetOf ev)) = true := by
  intro fuel
  induction fuel with
  | zero => intro p q _; simp [okUps]
  | succ n ih =>
    intro p q hq
    rw [okUps]
    by_cases h : total ≤ p + c
    · simp [h, offsetOf, hq]
    · simp only [h, if_false]
      rw [List.all_cons, Bool.and_eq_true]
      exact ⟨by simp [offsetOf, hq], ih (p + c) q (by omega)⟩

lemma okUps_all_len_le (c total : Nat) :
    ∀ (fuel p : Nat), total ≤ p + fuel * c →
      (okUps c total p fuel).all (fun ev => decide (lengthOf ev ≤ c)) = true := by
  intro fuel
  induction fuel with
  | zero => intro p _; simp [okUps]
  | succ n ih =>
    intro p hb
    rw [okUps]
    by_cases h : total ≤ p + c
    · simp [h, lengthOf]; omega
    · have hmul : (n + 1) * c = n * c + c := Nat.succ_mul n c
      simp only [h, if_false]
      rw [List.all_cons, Bool.and_eq_true]
      exact ⟨by simp [lengthOf], ih (p + c) (by rw [hmul] at hb; omega)⟩

lemma okUps_chain (c total : Nat) (hc : 0 < c) :
    ∀ (fuel p : Nat),
      List.Chain'
        (fun e1 e2 => offsetOf e1 + lengthOf e1 = offsetOf e2 ∧
          offsetOf e1 < offsetOf e2)
        (okUps c total p fuel) := by
  intro fuel
  induction fuel with
  | zero => intro p; simp [okUps]
  | succ n ih =>
    intro p
    rw [okUps]
    by_cases h : total ≤ p + c
    · simp [h]
    · simp only [h, if_false]
      rw [List.chain'_cons']
      refine ⟨?_, ih (p + c)⟩
      intro b hb
      cases n with
      | zero => simp [okUps] at hb
      | succ m =>
        have hh := okUps_head_offset c total m (p + c)
        have hb2 : offsetOf b = p + c := by
          cases hhead : (okUps c total (p + c) (m + 1)).head? with
          | none => rw [hhead] at hb; simp at hb
          | some ev =>
            rw [hhead] at hb hh
            simp at hb hh
            exact hb ▸ hh
        refine ⟨?_, ?_⟩
        · rw [hb2]; rfl
        · rw [hb2]; simp only [offsetOf]; omega

lemma okUps_ne_nil (c total : Nat) (fuel p : Nat) :
    okUps c total p (fuel + 1) ≠ [] := by
  rw [okUps]
  by_cases h : total ≤ p + c <;> simp [h]

lemma okUps_last (c total : Nat) :
    ∀ (fuel p : Nat), total ≤ p + fuel * c → p ≤ total → 0 < fuel →
      lastCallOk total (okUps c total p fuel).getLast? = true := by
  intro fuel
  induction fuel with
  | zero => intro p _ _ hf; omega
  | succ n ih =>
    intro p hb hp _
    rw [okUps]
    by_cases h : total ≤ p + c
    · simp [h, lastCallOk, isLastOf, offsetOf, lengthOf]; omega
    · have hmul : (n + 1) * c = n * c + c := Nat.succ_mul n c
      have hn : 0 < n := by
        rcases Nat.eq_zero_or_pos n with h0 | h0
        · subst h0; rw [hmul] at hb; omega
        · exact h0
      simp only [h, if_false]
      cases n with
      | zero => omega
      | succ m =>
        rw [getLast?_cons_of_tail_ne_nil _ _ (okUps_ne_nil c total m (p + c))]
        exact ih (p + c) (by rw [hmul] at hb; omega) (by omega) hn

lemma failTrace_filter_upload (pos len total : Nat) (isLast : Bool) (lo hi : Nat) :
    ∀ (evs : List (Nat × Nat)) (r : Nat),
      (failTrace pos len total isLast lo hi r evs).filter isUpload =
        (List.range evs.length).map
          (fun i => Event.chunkUpload pos len (r + i) total isLast lo hi) := by
  intro evs
  induction evs with
  | nil => intro r; simp [failTrace]
  | cons ed tl ih =>
    intro r
    obtain ⟨e, d⟩ := ed
    rw [failTrace]
    simp only [List.filter_cons]
    rw [List.length_cons, List.range_succ_eq_map]
    simp only [List.map_cons, List.map_map]
    simp [isUpload, ih (r + 1)]
    intro a ha
    omega

lemma failTrace_filter_statusChange (pos len total : Nat) (isLast : Bool)
    (lo hi : Nat) :
    ∀ (evs : List (Nat × Nat)) (r : Nat),
      (failTrace pos len total isLast lo hi r evs).filter isStatusChange = [] := by
  intro evs
  induction evs with
  | nil => intro r; simp [failTrace]
  | cons ed tl ih =>
    intro r
    obtain ⟨e, d⟩ := ed
    rw [failTrace]
    simp [isStatusChange, ih (r + 1)]

lemma failTrace_filter_errorCb (pos len total : Nat) (isLast : Bool)
    (lo hi : Nat) :
    ∀ (evs : List (Nat × Nat)) (r : Nat),
      (failTrace pos len total isLast lo hi r evs).filter isErrorCb = [] := by
  intro evs
  induction evs with
  | nil => intro r; simp [failTrace]
  | cons ed tl ih =>
    intro r
    obtain ⟨e, d⟩ := ed
    rw [failTrace]
    simp [isErrorCb, ih (r + 1)]

lemma failTrace_filter_waited (pos len total : Nat) (isLast : Bool)
    (lo hi : Nat) :
    ∀ (evs : List (Nat × Nat)) (r : Nat),
      (failTrace pos len total isLast lo hi r evs).filter isWaited =
        evs.map (fun x => Event.waited x.2) := by
  intro evs
  induction evs with
  | nil => intro r; simp [failTrace]
  | cons ed tl ih =>
    intro r
    obtain ⟨e, d⟩ := ed
    rw [failTrace]
    simp [isWaited, isUpload, ih (r + 1)]


/-- Behavior of `_uploadNextChunk` when every attempt up to the retry limit fails (and no
pause arrives): the position is not advanced, the status becomes `error`, the
error value of the final attempt is recorded and re-thrown. -/
lemma uploadNextChunk_exhaust (sched : Sched) (evs : List (Nat × Nat)) (e : Nat)
    (call sp : Nat) (s : ChunkUploader)
    (hst : s.status = ChunkUploaderStatus.uploading)
    (hds : s.retryDelays = evs.map Prod.snd)
    (hpre : ∀ i, i < evs.length → sched (call + i) = (evs[i]?).map Prod.fst)
    (hfail : sched (call + evs.length) = some e) :
    uploadNextChunk sched noPause s call sp =
      (Except.error e,
        { s with
            status := ChunkUploaderStatus.error
            error := some e
            isUploadingLastChunk := false },
        failTrace s.position
          ((if decide (s.fileSize ≤ s.position + s.chunkBytes) = true then s.fileSize
            else s.position + s.chunkBytes) - s.position)
          s.fileSize (decide (s.fileSize ≤ s.position + s.chunkBytes)) s.position
          (if decide (s.fileSize ≤ s.position + s.chunkBytes) = true then s.fileSize
            else s.position + s.chunkBytes) 0 evs ++
          [Event.chunkUpload s.position
            ((if decide (s.fileSize ≤ s.position + s.chunkBytes) = true then s.fileSize
              else s.position + s.chunkBytes) - s.position)
            evs.length s.fileSize (decide (s.fileSize ≤ s.position + s.chunkBytes))
            s.position
            (if decide (s.fileSize ≤ s.position + s.chunkBytes) = true then s.fileSize
              else s.position + s.chunkBytes),
           Event.statusChange (some ChunkUploaderStatus.uploading)
             ChunkUploaderStatus.error s.error,
           Event.errorCb e],
        call + evs.length + 1, sp + 2 * evs.length + 1) := by
  simp only [uploadNextChunk]
  rw [hds, attemptLoop_exhaust sched _ s.position _ evs e 0 call sp s hst hpre hfail]
  simp
  exact hds

/-- Behavior of `_uploadNextChunk` when the first `evs.length` attempts fail (with at least
that many retries configured, and no pause pending) and the next succeeds: the
same byte range is re-sent each time with increasing retry counter, the
configured delays are waited in order, and only then the position advances. -/
lemma uploadNextChunk_retry (sched : Sched) (evs : List (Nat × Nat))
    (ds2 : List Nat) (call sp : Nat) (s : ChunkUploader)
    (hst : s.status = ChunkUploaderStatus.uploading)
    (hds : s.retryDelays = evs.map Prod.snd ++ ds2)
    (hpre : ∀ i, i < evs.length → sched (call + i) = (evs[i]?).map Prod.fst)
    (hsucc : sched (call + evs.length) = none) :
    uploadNextChunk sched noPause s call sp =
      (Except.ok (decide (s.fileSize ≤ s.position + s.chunkBytes)),
        (if decide (s.fileSize ≤ s.position + s.chunkBytes) = true then
          { s with
              status := ChunkUploaderStatus.complete
              position := s.fileSize
              isUploadingLastChunk := false }
         else
          { s with
              position := s.position + s.chunkBytes
              isUploadingLastChunk := false }),
        failTrace s.position
          ((if decide (s.fileSize ≤ s.position + s.chunkBytes) = true then s.fileSize
            else s.position + s.chunkBytes) - s.position)
          s.fileSize (decide (s.fileSize ≤ s.position + s.chunkBytes)) s.position
          (if decide (s.fileSize ≤ s.position + s.chunkBytes) = true then s.fileSize
            else s.position + s.chunkBytes) 0 evs ++
          [Event.chunkUpload s.position
            ((if decide (s.fileSize ≤ s.position + s.chunkBytes) = true then s.fileSize
              else s.position + s.chunkBytes) - s.position)
            evs.length s.fileSize (decide (s.fileSize ≤ s.position + s.chunkBytes))
            s.position
            (if decide (s.fileSize ≤ s.position + s.chunkBytes) = true then s.fileSize
              else s.position + s.chunkBytes)] ++
          (if decide (s.fileSize ≤ s.position + s.chunkBytes) = true then
            [Event.statusChange (some ChunkUploaderStatus.uploading)
              ChunkUploaderStatus.complete s.error]
           else []) ++
          [Event.chunkComplete
            (if decide (s.fileSize ≤ s.position + s.chunkBytes) = true then s.fileSize
              else s.position + s.chunkBytes) s.fileSize] ++
          (if decide (s.fileSize ≤ s.position + s.chunkBytes) = true then
            [Event.successCb] else []),
        call + evs.length + 1, sp + 2 * evs.length + 1) := by
  simp only [uploadNextChunk]
  rw [hds, attemptLoop_fail_prefix sched _ s.position _ evs ds2 0 call sp s hst hpre hsucc]
  by_cases hL : s.fileSize ≤ s.position + s.chunkBytes <;>
    simp [hL, setStatus, hst, List.append_assoc] <;> exact hds


/-- Claim C1, counterexample: the claim says `abort()` succeeds from status
`error`, but the source's `abort()` checks `this.status !== 'paused'` only —
from `error` it returns `false`, performs no transition, and invokes no
callback. -/
theorem c1_counterexample :
    (⟨ChunkUploaderStatus.error, 3, false, some 7, 10, 5,
        []⟩ : ChunkUploader).status = ChunkUploaderStatus.error ∧
    ChunkUploader.abort ⟨ChunkUploaderStatus.error, 3, false, some 7, 10, 5, []⟩ =
      (false, ⟨ChunkUploaderStatus.error, 3, false, some 7, 10, 5, []⟩, []) := by
  decide

/-- Claim C1, amended: `abort()` succeeds (returns `true`, transitions to
`aborted`, and invokes the abort callback — which takes no arguments — exactly
once) if and only if the status is `paused`; from every other status
(including `error`) it returns `false` and changes no state. -/
theorem c1_abort_iff_paused (s : ChunkUploader) :
    ChunkUploader.abort s =
      if s.status = ChunkUploaderStatus.paused then
        (true, { s with status := ChunkUploaderStatus.aborted },
          [Event.statusChange (some ChunkUploaderStatus.paused)
            ChunkUploaderStatus.aborted s.error, Event.abortedCb])
      else (false, s, []) := by
  by_cases h : s.status = ChunkUploaderStatus.paused <;>
    simp [ChunkUploader.abort, setStatus, h]

/-- Claim C4: if the first `evs.length` transport attempts of a chunk fail
(with at least `evs.length` retry delays configured) and the next attempt
succeeds, the position advances only on the success, every attempt re-sends
the byte range `[p, endPos)` sliced from the unchanged offset `p`, the retry
counter of attempt `i` is `i`, and the configured delays are waited in
order between attempts. -/
theorem c4_retry_same_range (evs : List (Nat × Nat)) (ds2 : List Nat)
    (p total c : Nat) (f : Bool) (er : Option Nat) :
    let s : ChunkUploader :=
      ⟨ChunkUploaderStatus.uploading, p, f, er, total, c,
        evs.map Prod.snd ++ ds2⟩
    let isLastB := decide (total ≤ p + c)
    let endPos := if isLastB then total else p + c
    let u := uploadNextChunk (failThen (evs.map Prod.fst)) noPause s 0 0
    u.1 = Except.ok isLastB ∧
    u.2.1.position = endPos ∧
    u.2.1.error = er ∧
    u.2.2.1.filter isUpload =
      (List.range (evs.length + 1)).map
        (fun i => Event.chunkUpload p (endPos - p) i total isLastB p endPos) ∧
    u.2.2.1.filter isWaited = evs.map (fun x => Event.waited x.2) ∧
    u.2.2.2.1 = evs.length + 1 := by
  intro s isLastB endPos u
  have hpre : ∀ i, i < evs.length →
      failThen (evs.map Prod.fst) (0 + i) = (evs[i]?).map Prod.fst := by
    intro i hi
    simp [failThen]
  have hsucc : failThen (evs.map Prod.fst) (0 + evs.length) = none := by
    simp [failThen]
  have h := uploadNextChunk_retry (failThen (evs.map Prod.fst)) evs ds2 0 0
    s rfl rfl hpre hsucc
  simp only [u, s, isLastB, endPos]
  simp only [s] at h
  rw [h]
  by_cases hL : total ≤ p + c <;>
    simp [hL, List.filter_append, failTrace_filter_upload,
      failTrace_filter_waited, isUpload, isWaited, List.range_succ]

/-- Claim C5: when all `1 + retryDelays.length` transport attempts of a chunk
fail (no pause pending), the run makes exactly `retryDelays.length + 1`
transport calls, transitions to `error` exactly once (a single `statusChange`
event, into `error`), records the error value of the final attempt, fires
`onError` exactly once with that error, and does not advance the position.
The spec's concrete scenario — a 1 MiB file, 5 MiB chunk size, an
always-failing transport and `retryDelays = [100]` — makes exactly 2 transport
attempts and ends in status `error`. -/
theorem c5_exhausted_retries (evs : List (Nat × Nat)) (e p total c : Nat)
    (f : Bool) :
    (let s : ChunkUploader :=
      ⟨ChunkUploaderStatus.uploading, p, f, none, total, c, evs.map Prod.snd⟩
     let u := uploadNextChunk (failThen (evs.map Prod.fst ++ [e])) noPause s 0 0
     u.1 = Except.error e ∧
     u.2.1 = ⟨ChunkUploaderStatus.error, p, false, some e, total, c,
       evs.map Prod.snd⟩ ∧
     u.2.2.1.filter isStatusChange =
       [Event.statusChange (some ChunkUploaderStatus.uploading)
         ChunkUploaderStatus.error none] ∧
     u.2.2.1.filter isErrorCb = [Event.errorCb e] ∧
     (u.2.2.1.filter isUpload).length = evs.length + 1 ∧
     u.2.2.2.1 = evs.length + 1) ∧
    (let o := uploadNextChunk (failThen [7, 8]) noPause
      ⟨ChunkUploaderStatus.uploading, 0, false, none, 1048576, 5242880, [100]⟩ 0 0
     o.1 = Except.error 8 ∧
     o.2.1.status = ChunkUploaderStatus.error ∧
     o.2.1.error = some 8 ∧
     o.2.1.position = 0 ∧
     (o.2.2.1.filter isUpload).length = 2 ∧
     o.2.2.2.1 = 2) := by
  constructor
  · intro s u
    have hpre : ∀ i, i < evs.length →
        failThen (evs.map Prod.fst ++ [e]) (0 + i) = (evs[i]?).map Prod.fst := by
      intro i hi
      simp only [failThen, Nat.zero_add]
      rw [List.getElem?_append, if_pos (by simpa using hi)]
      simp
    have hfail : failThen (evs.map Prod.fst ++ [e]) (0 + evs.length) = some e := by
      simp only [failThen, Nat.zero_add]
      rw [List.getElem?_append, if_neg (by simp)]
      simp
    have h := uploadNextChunk_exhaust (failThen (evs.map Prod.fst ++ [e])) evs e
      0 0 s rfl rfl hpre hfail
    simp only [u, s]
    simp only [s] at h
    rw [h]
    simp [List.filter_append, failTrace_filter_statusChange,
      failTrace_filter_errorCb, failTrace_filter_upload,
      isStatusChange, isErrorCb, isUpload]
  · intro o
    simp only [o]
    decide


/-- Claim C10: the public operations `start`, `pause`, `resume`, `abort`
signal inability to act by returning `false`, never by throwing: for every
state, transport schedule and pause interleaving each returns a boolean equal
to its status precondition.  Moreover, when the internal chunk loop rejects
with a transport error (`Except.error`), `start` still returns `true` and the
failure surfaces only as the recorded `error` status — the rejection is
swallowed by `.catch(() => {})`. -/
theorem c10_public_ops_no_throw (sched : Sched) (env : Env) (fuel : Nat)
    (s : ChunkUploader) (evs : List (Nat × Nat)) (e p total c : Nat)
    (f : Bool) :
    (ChunkUploader.start sched env fuel s).1 =
      decide (s.status = ChunkUploaderStatus.pending) ∧
    (ChunkUploader.pause s).1 =
      (decide (s.status = ChunkUploaderStatus.uploading) &&
        !s.isUploadingLastChunk) ∧
    (ChunkUploader.resume sched env fuel s).1 =
      (decide (s.status = ChunkUploaderStatus.paused) ||
        decide (s.status = ChunkUploaderStatus.error)) ∧
    (ChunkUploader.abort s).1 =
      decide (s.status = ChunkUploaderStatus.paused) ∧
    (let sched2 := failThen (evs.map Prod.fst ++ [e])
     let sl : ChunkUploader :=
       ⟨ChunkUploaderStatus.uploading, p, f, none, total, c, evs.map Prod.snd⟩
     let s0 : ChunkUploader :=
       ⟨ChunkUploaderStatus.pending, p, f, none, total, c, evs.map Prod.snd⟩
     (∃ o, startUploadFromCurrentPosition sched2 noPause 1 sl 0 0 = some o ∧
        o.res = Except.error e) ∧
     (ChunkUploader.start sched2 noPause 1 s0).1 = true ∧
     (ChunkUploader.start sched2 noPause 1 s0).2.1.status =
       ChunkUploaderStatus.error ∧
     (ChunkUploader.start sched2 noPause 1 s0).2.1.error = some e) := by
  refine ⟨?_, ?_, ?_, ?_, ?_⟩
  · by_cases h : s.status = ChunkUploaderStatus.pending
    · simp only [ChunkUploader.start, if_pos h, h]
      cases hx : startUploadFromCurrentPosition sched env fuel
        { (setStatus ChunkUploaderStatus.uploading s).1 with error := none } 0 0 <;>
        simp [hx]
    · simp [ChunkUploader.start, h]
  · by_cases h : s.status = ChunkUploaderStatus.uploading <;>
      cases hf : s.isUploadingLastChunk <;>
      simp [ChunkUploader.pause, h, hf]
  · simp only [ChunkUploader.resume]
    by_cases h : (s.status = ChunkUploaderStatus.paused ∨
        s.status = ChunkUploaderStatus.error)
    · rw [if_pos h]
      rcases h with h | h <;> simp [h] <;> split <;> simp
    · rw [if_neg h]
      push_neg at h
      simp [h.1, h.2]
  · by_cases h : s.status = ChunkUploaderStatus.paused <;>
      simp [ChunkUploader.abort, setStatus, h]
  · intro sched2 sl s0
    have hpre : ∀ i, i < evs.length →
        sched2 (0 + i) = (evs[i]?).map Prod.fst := by
      intro i hi
      simp only [sched2, failThen, Nat.zero_add]
      rw [List.getElem?_append, if_pos (by simpa using hi)]
      simp
    have hfail : sched2 (0 + evs.length) = some e := by
      simp only [sched2, failThen, Nat.zero_add]
      rw [List.getElem?_append, if_neg (by simp)]
      simp
    have h := uploadNextChunk_exhaust sched2 evs e 0 0 sl rfl rfl hpre hfail
    simp only [sl] at h
    have hrun : startUploadFromCurrentPosition sched2 noPause 1 sl 0 0 =
        some ⟨Except.error e,
          ⟨ChunkUploaderStatus.error, p, false, some e, total, c,
            evs.map Prod.snd⟩,
          (uploadNextChunk sched2 noPause sl 0 0).2.2.1,
          evs.length + 1, 2 * evs.length + 1⟩ := by
      rw [startUploadFromCurrentPosition]
      simp only [sl]
      rw [h]
      simp
    have hrunL := hrun
    simp only [sl] at hrunL
    have hstart : ChunkUploader.start sched2 noPause 1 s0 =
        (true,
          ⟨ChunkUploaderStatus.error, p, false, some e, total, c,
            evs.map Prod.snd⟩,
          Event.statusChange (some ChunkUploaderStatus.pending)
            ChunkUploaderStatus.uploading none ::
            (uploadNextChunk sched2 noPause sl 0 0).2.2.1) := by
      simp only [ChunkUploader.start, s0, setStatus, reduceCtorEq, reduceIte]
      rw [hrunL]
      simp [sl]
    exact ⟨⟨_, hrun, rfl⟩, by rw [hstart], by rw [hstart], by rw [hstart]⟩


/-- Claim C7: while the final chunk's transport call is outstanding
(`_isUploadingLastChunk` is set), `pause()` returns `false` and the status
stays `uploading`; a pause attempted during the final chunk's (successful)
transport call is refused (`pauseCall false` in the trace) and the session
ends in status `complete` once that call succeeds. -/
theorem c7_pause_refused_on_final_chunk (p L b total2 c2 : Nat)
    (er : Option Nat) (ds ds2 : List Nat) :
    ChunkUploader.pause
        ⟨ChunkUploaderStatus.uploading, p, true, er, total2, c2, ds2⟩ =
      (false, ⟨ChunkUploaderStatus.uploading, p, true, er, total2, c2, ds2⟩,
        []) ∧
    startUploadFromCurrentPosition allOk (pauseAt 0) 1
        ⟨ChunkUploaderStatus.uploading, p, false, none, p + L, L + b, ds⟩ 0 0 =
      some ⟨Except.ok (),
        ⟨ChunkUploaderStatus.complete, p + L, false, none, p + L, L + b, ds⟩,
        [Event.chunkUpload p L 0 (p + L) true p (p + L),
         Event.pauseCall false,
         Event.statusChange (some ChunkUploaderStatus.uploading)
           ChunkUploaderStatus.complete none,
         Event.chunkComplete (p + L) (p + L),
         Event.successCb], 1, 1⟩ := by
  constructor
  · simp [ChunkUploader.pause]
  · have hL : p + L ≤ p + (L + b) := by omega
    rw [startUploadFromCurrentPosition]
    simp only [uploadNextChunk]
    rw [attemptLoop]
    simp [atSP, pauseAt, allOk, ChunkUploader.pause, setStatus, hL,
      Nat.add_sub_cancel_left]


/-- Claim C8, counterexample: a 4-byte file with 5 MiB-free chunk size (one
final chunk), `retryDelays = [100]`, transport failing once then succeeding,
with `pause()` invoked while the loop waits out the backoff delay for the
final chunk (suspension point 1).  The claim says `isUploadingLastChunk` is
false during that wait, so the pause would be accepted; but the source's
`finally` clears the flag only after the `catch` block (which contains the
wait) finishes, so the pause is refused — `pauseCall false` in the trace, the
wait completes, the retry is sent, and the run ends `complete`, not
`paused`. -/
theorem c8_counterexample :
    startUploadFromCurrentPosition (failThen [9]) (pauseAt 1) 1
      ⟨ChunkUploaderStatus.uploading, 0, false, none, 4, 5, [100]⟩ 0 0 =
    some ⟨Except.ok (),
      ⟨ChunkUploaderStatus.complete, 4, false, none, 4, 5, [100]⟩,
      [Event.chunkUpload 0 4 0 4 true 0 4,
       Event.pauseCall false,
       Event.waited 100,
       Event.chunkUpload 0 4 1 4 true 0 4,
       Event.statusChange (some ChunkUploaderStatus.uploading)
         ChunkUploaderStatus.complete none,
       Event.chunkComplete 4 4,
       Event.successCb], 2, 3⟩ ∧
    (ChunkUploader.pause
      ⟨ChunkUploaderStatus.uploading, 0, false, none, 4, 5, [100]⟩).1 = true := by
  decide

/-- Claim C8, amended: `pause()` succeeds exactly when the status is
`uploading` and `isUploadingLastChunk` is unset; the flag is set for the whole
handling of a final-chunk attempt — including the `catch` block, because the
`finally` that clears it runs only after the `catch` — so a `pause()` issued
while the loop waits out a retry backoff delay for the final chunk is refused
(`pauseCall false`), the full delay elapses, the retry is sent, and the
session completes. -/
theorem c8_flag_during_final_backoff (s : ChunkUploader)
    (p L b d e : Nat) (rest : List Nat) (f : Bool) :
    (ChunkUploader.pause s).1 =
      (decide (s.status = ChunkUploaderStatus.uploading) &&
        !s.isUploadingLastChunk) ∧
    startUploadFromCurrentPosition (failThen [e]) (pauseAt 1) 1
        ⟨ChunkUploaderStatus.uploading, p, f, none, p + L, L + b, d :: rest⟩ 0 0 =
      some ⟨Except.ok (),
        ⟨ChunkUploaderStatus.complete, p + L, false, none, p + L, L + b,
          d :: rest⟩,
        [Event.chunkUpload p L 0 (p + L) true p (p + L),
         Event.pauseCall false,
         Event.waited d,
         Event.chunkUpload p L 1 (p + L) true p (p + L),
         Event.statusChange (some ChunkUploaderStatus.uploading)
           ChunkUploaderStatus.complete none,
         Event.chunkComplete (p + L) (p + L),
         Event.successCb], 2, 3⟩ := by
  constructor
  · by_cases h : s.status = ChunkUploaderStatus.uploading <;>
      cases hf : s.isUploadingLastChunk <;>
      simp [ChunkUploader.pause, h, hf]
  · have hL : p + L ≤ p + (L + b) := by omega
    rw [startUploadFromCurrentPosition]
    simp only [uploadNextChunk]
    rw [attemptLoop]
    simp only [failThen, List.getElem?_cons_zero, atSP, pauseAt]
    rw [attemptLoop]
    simp [atSP, pauseAt, failThen, ChunkUploader.pause, setStatus, hL, wait,
      Nat.add_sub_cancel_left]


/-- Claim C2, counterexample: a 10-byte file with 3-byte chunks (the failing
chunk is not the last), `retryDelays = [100]`, both attempts failing, and
`pause()` requested during the backoff wait (suspension point 1).  The claim
says the wait resolves early and the loop exits into `paused` without
completing the delay and without another transport call; but the source's
`wait` is a plain `setTimeout` promise that nothing interrupts: the pause is
accepted (`pauseCall true`, status `pausing`), yet the full delay elapses
(`waited 100`) and a second transport call for the same chunk is issued
(`chunkUpload ... retry 1`) before the loop exits into `paused`. -/
theorem c2_counterexample :
    startUploadFromCurrentPosition (failThen [4, 5]) (pauseAt 1) 1
      ⟨ChunkUploaderStatus.uploading, 0, false, none, 10, 3, [100]⟩ 0 0 =
    some ⟨Except.ok (),
      ⟨ChunkUploaderStatus.paused, 0, false, none, 10, 3, [100]⟩,
      [Event.chunkUpload 0 3 0 10 false 0 3,
       Event.statusChange (some ChunkUploaderStatus.uploading)
         ChunkUploaderStatus.pausing none,
       Event.pauseCall true,
       Event.waited 100,
       Event.chunkUpload 0 3 1 10 false 0 3,
       Event.statusChange (some ChunkUploaderStatus.pausing)
         ChunkUploaderStatus.paused none,
       Event.pausedCb], 2, 3⟩ := by
  decide

/-- Claim C2, amended: a `pause()` requested while a failed (non-final) chunk
waits out its retry backoff delay is accepted immediately (status becomes
`pausing`), but the wait is not interruptible: the configured delay elapses
in full (`waited d`) and one more transport call for the same chunk is issued
(retry 1); only when that attempt settles does the loop observe the pause and
exit into `paused`, at the unchanged position and with no further transport
calls. -/
theorem c2_pause_during_backoff_wait (p c t d e1 e2 : Nat) (rest : List Nat)
    (f : Bool) :
    startUploadFromCurrentPosition (failThen [e1, e2]) (pauseAt 1) 1
        ⟨ChunkUploaderStatus.uploading, p, f, none, p + (c + 1) + (t + 1),
          c + 1, d :: rest⟩ 0 0 =
      some ⟨Except.ok (),
        ⟨ChunkUploaderStatus.paused, p, false, none, p + (c + 1) + (t + 1),
          c + 1, d :: rest⟩,
        [Event.chunkUpload p (c + 1) 0 (p + (c + 1) + (t + 1)) false p
           (p + (c + 1)),
         Event.statusChange (some ChunkUploaderStatus.uploading)
           ChunkUploaderStatus.pausing none,
         Event.pauseCall true,
         Event.waited d,
         Event.chunkUpload p (c + 1) 1 (p + (c + 1) + (t + 1)) false p
           (p + (c + 1)),
         Event.statusChange (some ChunkUploaderStatus.pausing)
           ChunkUploaderStatus.paused none,
         Event.pausedCb], 2, 3⟩ := by
  have hNL : ¬ (p + (c + 1) + (t + 1) ≤ p + (c + 1)) := by omega
  rw [startUploadFromCurrentPosition]
  simp only [uploadNextChunk]
  rw [attemptLoop]
  simp only [failThen, List.getElem?_cons_zero, atSP, pauseAt]
  rw [attemptLoop]
  simp [atSP, pauseAt, failThen, ChunkUploader.pause, setStatus, hNL, wait,
    Nat.add_sub_cancel_left]


/-- Claim C3: for every file size and every positive chunk size, `start()`
followed by uniformly successful transport calls returns `true` and drives
the position from 0 to the file size: the transport calls have strictly
increasing offsets, each call's offset is the previous offset plus the
previous length, every length is at most `chunkBytes`, the first offset is 0,
and the final call has `isLastChunk = true` and `offset + length = total`;
the run ends in status `complete` at `position = fileSize`.  The spec's
scenario — a 12 MiB file with 5 MiB chunks and no retries — makes exactly
three transport calls at offsets 0, 5 MiB, 10 MiB with `isLastChunk` false,
false, true, and final position 12 MiB. -/
theorem c3_success_progression (total c : Nat) (rds : List Nat) :
    (let cb := c + 1
     let s0 : ChunkUploader :=
       ⟨ChunkUploaderStatus.pending, 0, false, none, total, cb, rds⟩
     let out := ChunkUploader.start allOk noPause (total + 1) s0
     let us := out.2.2.filter isUpload
     out.1 = true ∧
     out.2.1 = ⟨ChunkUploaderStatus.complete, total, false, none, total, cb,
       rds⟩ ∧
     out.2.2 = Event.statusChange (some ChunkUploaderStatus.pending)
       ChunkUploaderStatus.uploading none :: (okRun cb total 0 (total + 1)).1 ∧
     us = okUps cb total 0 (total + 1) ∧
     List.Chain' (fun e1 e2 => offsetOf e1 + lengthOf e1 = offsetOf e2 ∧
       offsetOf e1 < offsetOf e2) us ∧
     us.all (fun ev => decide (lengthOf ev ≤ cb)) = true ∧
     us.head?.map offsetOf = some 0 ∧
     lastCallOk total us.getLast? = true) ∧
    (let o := ChunkUploader.start allOk noPause 4
       ⟨ChunkUploaderStatus.pending, 0, false, none, 12582912, 5242880, []⟩
     (o.2.2.filter isUpload).map offsetOf = [0, 5242880, 10485760] ∧
     (o.2.2.filter isUpload).map isLastOf = [false, false, true] ∧
     (o.2.2.filter isUpload).length = 3 ∧
     o.2.1.position = 12582912 ∧
     o.2.1.status = ChunkUploaderStatus.complete) := by
  constructor
  · intro cb s0 out us
    have hcb : 0 < cb := by omega
    have hbound : total ≤ 0 + (total + 1) * cb := by
      have := Nat.le_mul_of_pos_right (total + 1) hcb
      omega
    have hloop := startLoop_ok (total + 1) 0 0 0
      ⟨ChunkUploaderStatus.uploading, 0, false, none, total, cb, rds⟩
      rfl rfl rfl hcb (by omega) (by simpa using hbound)
    have hstart : out = (true,
        ⟨ChunkUploaderStatus.complete, total, false, none, total, cb, rds⟩,
        Event.statusChange (some ChunkUploaderStatus.pending)
          ChunkUploaderStatus.uploading none ::
          (okRun cb total 0 (total + 1)).1) := by
      simp only [out, s0, ChunkUploader.start, setStatus, reduceCtorEq,
        reduceIte]
      rw [hloop]
      simp
    have hus : us = okUps cb total 0 (total + 1) := by
      simp only [us, hstart]
      simp [isUpload, okRun_filter_upload]
    refine ⟨by rw [hstart], by rw [hstart], by rw [hstart], hus, ?_, ?_, ?_, ?_⟩
    · rw [hus]; exact okUps_chain cb total hcb (total + 1) 0
    · rw [hus]; exact okUps_all_len_le cb total (total + 1) 0 (by simpa using hbound)
    · rw [hus]; exact okUps_head_offset cb total total 0
    · rw [hus]
      exact okUps_last cb total (total + 1) 0 (by simpa using hbound)
        (by omega) (by omega)
  · intro o
    simp only [o]
    decide


/-- Claim C6: `pause()` on an uploader that is `uploading` with no final chunk
in flight is accepted (`uploading → pausing`); the loop then observes the
pause at the next safe point and transitions `pausing → paused` after
committing the in-flight chunk.  A subsequent `resume()` re-enters the loop
from the same position and never re-sends a byte range below it.  Moreover
`resume()` runs the very same loop (`_startUploadFromCurrentPosition`) as
`start()`, parameterized only by the starting state: from identical
configurations and positions they produce identical final states and
identical traces after their respective initial `statusChange` events. -/
theorem c6_pause_resume_continuity (p c t q total2 c2 : Nat)
    (ds ds2 : List Nat) (f2 : Bool) (er2 : Option Nat)
    (sched : Sched) (env : Env) (fuel : Nat) :
    (let total := p + (c + 1) + (t + 1)
     let sB : ChunkUploader :=
       ⟨ChunkUploaderStatus.uploading, p, false, none, total, c + 1, ds⟩
     let sP : ChunkUploader :=
       ⟨ChunkUploaderStatus.paused, p + (c + 1), false, none, total, c + 1, ds⟩
     ChunkUploader.pause sB =
       (true, ⟨ChunkUploaderStatus.pausing, p, false, none, total, c + 1, ds⟩,
        [Event.statusChange (some ChunkUploaderStatus.uploading)
          ChunkUploaderStatus.pausing none]) ∧
     startUploadFromCurrentPosition allOk (pauseAt 0) 1 sB 0 0 =
       some ⟨Except.ok (), sP,
         [Event.chunkUpload p (c + 1) 0 total false p (p + (c + 1)),
          Event.statusChange (some ChunkUploaderStatus.uploading)
            ChunkUploaderStatus.pausing none,
          Event.pauseCall true,
          Event.chunkComplete (p + (c + 1)) total,
          Event.statusChange (some ChunkUploaderStatus.pausing)
            ChunkUploaderStatus.paused none,
          Event.pausedCb], 1, 1⟩ ∧
     ChunkUploader.resume allOk noPause (total + 1) sP =
       (true, ⟨ChunkUploaderStatus.complete, total, false, none, total, c + 1,
          ds⟩,
        Event.statusChange (some ChunkUploaderStatus.paused)
          ChunkUploaderStatus.uploading none ::
          (okRun (c + 1) total (p + (c + 1)) (total + 1)).1) ∧
     ((ChunkUploader.resume allOk noPause (total + 1) sP).2.2.filter
        isUpload).all (fun ev => decide (p + (c + 1) ≤ offsetOf ev)) = true ∧
     ((ChunkUploader.resume allOk noPause (total + 1) sP).2.2.filter
        isUpload).head?.map offsetOf = some (p + (c + 1))) ∧
    (let sPaused : ChunkUploader :=
       ⟨ChunkUploaderStatus.paused, q, f2, er2, total2, c2, ds2⟩
     let sPending : ChunkUploader :=
       ⟨ChunkUploaderStatus.pending, q, f2, er2, total2, c2, ds2⟩
     (ChunkUploader.resume sched env fuel sPaused).1 = true ∧
     (ChunkUploader.start sched env fuel sPending).1 = true ∧
     (ChunkUploader.resume sched env fuel sPaused).2.1 =
       (ChunkUploader.start sched env fuel sPending).2.1 ∧
     (ChunkUploader.resume sched env fuel sPaused).2.2.tail =
       (ChunkUploader.start sched env fuel sPending).2.2.tail) := by
  constructor
  · intro total sB sP
    have hNL : ¬ (total ≤ p + (c + 1)) := by simp only [total]; omega
    have hcb : (0 : Nat) < c + 1 := by omega
    have hbound : total ≤ (p + (c + 1)) + (total + 1) * (c + 1) := by
      have := Nat.le_mul_of_pos_right (total + 1) hcb
      omega
    have hloop := startLoop_ok (total + 1) (p + (c + 1)) 0 0
      ⟨ChunkUploaderStatus.uploading, p + (c + 1), false, none, total, c + 1,
        ds⟩ rfl rfl rfl hcb (by omega) (by simpa using hbound)
    have hres : ChunkUploader.resume allOk noPause (total + 1) sP =
        (true,
          ⟨ChunkUploaderStatus.complete, total, false, none, total, c + 1, ds⟩,
          Event.statusChange (some ChunkUploaderStatus.paused)
            ChunkUploaderStatus.uploading none ::
            (okRun (c + 1) total (p + (c + 1)) (total + 1)).1) := by
      simp only [ChunkUploader.resume, sP, setStatus, reduceCtorEq, reduceIte]
      rw [hloop]
      simp
    refine ⟨?_, ?_, hres, ?_, ?_⟩
    · simp [sB, ChunkUploader.pause, setStatus]
    · rw [startUploadFromCurrentPosition]
      simp only [sB, uploadNextChunk]
      rw [attemptLoop]
      simp [sP, atSP, pauseAt, allOk, ChunkUploader.pause, setStatus, hNL,
        Nat.add_sub_cancel_left]
    · rw [hres]
      simp only [List.filter_cons]
      simp [isUpload, okRun_filter_upload]
      simpa using okUps_all_ge (c + 1) total (total + 1) (p + (c + 1))
        (p + (c + 1)) (Nat.le_refl _)
    · rw [hres]
      simp only [List.filter_cons]
      simp [isUpload, okRun_filter_upload]
      simpa using okUps_head_offset (c + 1) total total (p + (c + 1))
  · intro sPaused sPending
    simp only [ChunkUploader.resume, ChunkUploader.start, sPaused, sPending,
      setStatus, reduceCtorEq, reduceIte]
    cases hx : startUploadFromCurrentPosition sched env fuel
      ⟨ChunkUploaderStatus.uploading, q, f2, none, total2, c2, ds2⟩ 0 0 <;>
      simp [hx]


lemma setStatus_status (v : ChunkUploaderStatus) (s : ChunkUploader) :
    (setStatus v s).1.status = v := by
  unfold setStatus
  split <;> simp_all

lemma setStatus_error (v : ChunkUploaderStatus) (s : ChunkUploader) :
    (setStatus v s).1.error = s.error := by
  unfold setStatus
  split <;> simp

lemma atSP_inv (env : Env) (sp : Nat) (s : ChunkUploader)
    (h : s.status = ChunkUploaderStatus.uploading ∨
      s.status = ChunkUploaderStatus.pausing) :
    (atSP env sp s).1.error = s.error ∧
    ((atSP env sp s).1.status = ChunkUploaderStatus.uploading ∨
      (atSP env sp s).1.status = ChunkUploaderStatus.pausing) := by
  unfold atSP ChunkUploader.pause setStatus
  rcases h with h | h <;> by_cases he : env sp <;>
    by_cases hf : s.isUploadingLastChunk <;> simp [he, h, hf]

lemma attemptLoop_inv (sched : Sched) (env : Env) (isLast : Bool)
    (lo hi : Nat) :
    ∀ (delays : List Nat) (r call sp : Nat) (s : ChunkUploader),
      (s.status = ChunkUploaderStatus.uploading ∨
        s.status = ChunkUploaderStatus.pausing) → s.error = none →
      (∀ e, (attemptLoop sched env isLast lo hi r delays s call sp).exit =
          ALExit.threw e →
        (attemptLoop sched env isLast lo hi r delays s call sp).s.status =
          ChunkUploaderStatus.error ∧
        (attemptLoop sched env isLast lo hi r delays s call sp).s.error =
          some e) ∧
      (((attemptLoop sched env isLast lo hi r delays s call sp).exit =
          ALExit.broke ∨
        (attemptLoop sched env isLast lo hi r delays s call sp).exit =
          ALExit.returnedFalse) →
        (attemptLoop sched env isLast lo hi r delays s call sp).s.error =
          none ∧
        ((attemptLoop sched env isLast lo hi r delays s call sp).s.status =
          ChunkUploaderStatus.uploading ∨
         (attemptLoop sched env isLast lo hi r delays s call sp).s.status =
          ChunkUploaderStatus.pausing)) := by
  intro delays
  induction delays with
  | nil =>
    intro r call sp s hst herr
    have hsp := atSP_inv env sp { s with isUploadingLastChunk := isLast }
      (by simpa using hst)
    rw [attemptLoop]
    cases hout : sched call with
    | none => simp_all
    | some e =>
      by_cases hpz : (atSP env sp
          { s with isUploadingLastChunk := isLast }).1.status =
          ChunkUploaderStatus.pausing
      · simp_all
      · have hup : (atSP env sp
            { s with isUploadingLastChunk := isLast }).1.status =
            ChunkUploaderStatus.uploading := by tauto
        simp only [hpz, if_false, Bool.false_eq_true, reduceIte]
        simp only [setStatus, hup, reduceCtorEq, reduceIte]
        simp_all
  | cons d rest ih =>
    intro r call sp s hst herr
    have hsp := atSP_inv env sp { s with isUploadingLastChunk := isLast }
      (by simpa using hst)
    rw [attemptLoop]
    cases hout : sched call with
    | none => simp_all
    | some e =>
      by_cases hpz : (atSP env sp
          { s with isUploadingLastChunk := isLast }).1.status =
          ChunkUploaderStatus.pausing
      · simp_all
      · have hup : (atSP env sp
            { s with isUploadingLastChunk := isLast }).1.status =
            ChunkUploaderStatus.uploading := by tauto
        have hsp2 := atSP_inv env (sp + 1)
          (atSP env sp { s with isUploadingLastChunk := isLast }).1
          (Or.inl hup)
        have hrec := ih (r + 1) (call + 1) (sp + 2)
          { (atSP env (sp + 1)
              (atSP env sp { s with isUploadingLastChunk := isLast }).1).1
            with isUploadingLastChunk := false }
          (by simpa using hsp2.2)
          (by
            show (atSP env (sp + 1)
              (atSP env sp { s with isUploadingLastChunk := isLast }).1).1.error = none
            rw [hsp2.1, hsp.1]
            exact herr)
        simp only [hpz, if_false, Bool.false_eq_true, reduceIte]
        simpa using hrec

lemma uploadNextChunk_inv (sched : Sched) (env : Env) (s : ChunkUploader)
    (call sp : Nat) (hst : s.status = ChunkUploaderStatus.uploading)
    (herr : s.error = none) :
    (∀ e, (uploadNextChunk sched env s call sp).1 = Except.error e →
      (uploadNextChunk sched env s call sp).2.1.status =
        ChunkUploaderStatus.error ∧
      (uploadNextChunk sched env s call sp).2.1.error = some e) ∧
    (∀ b, (uploadNextChunk sched env s call sp).1 = Except.ok b →
      (uploadNextChunk sched env s call sp).2.1.error = none ∧
      (uploadNextChunk sched env s call sp).2.1.status ≠
        ChunkUploaderStatus.error ∧
      (b = false →
        ((uploadNextChunk sched env s call sp).2.1.status =
          ChunkUploaderStatus.uploading ∨
         (uploadNextChunk sched env s call sp).2.1.status =
          ChunkUploaderStatus.pausing))) := by
  obtain ⟨halT, halB⟩ := attemptLoop_inv sched env
    (decide (s.fileSize ≤ s.position + s.chunkBytes)) s.position
    (if decide (s.fileSize ≤ s.position + s.chunkBytes) = true then s.fileSize
      else s.position + s.chunkBytes)
    s.retryDelays 0 call sp s (Or.inl hst) herr
  simp only [uploadNextChunk]
  generalize hA : attemptLoop sched env
    (decide (s.fileSize ≤ s.position + s.chunkBytes)) s.position
    (if decide (s.fileSize ≤ s.position + s.chunkBytes) = true then s.fileSize
      else s.position + s.chunkBytes)
    0 s.retryDelays s call sp = A at halT halB ⊢
  cases hex : A.exit with
  | threw e0 =>
    obtain ⟨h1, h2⟩ := halT e0 hex
    simp only [hex]
    constructor
    · intro e he
      simp only [Except.error.injEq] at he
      subst he
      exact ⟨h1, h2⟩
    · intro b hb
      simp at hb
  | returnedFalse =>
    obtain ⟨h1, h2⟩ := halB (Or.inr hex)
    simp only [hex]
    constructor
    · intro e he
      simp at he
    · intro b hb
      simp only [Except.ok.injEq] at hb
      subst hb
      refine ⟨h1, ?_, fun _ => h2⟩
      rcases h2 with h | h <;> simp [h]
  | broke =>
    obtain ⟨h1, h2⟩ := halB (Or.inl hex)
    simp only [hex]
    cases hL : decide (s.fileSize ≤ s.position + s.chunkBytes) with
    | true =>
      simp only [hL, reduceIte]
      constructor
      · intro e he
        simp at he
      · intro b hb
        refine ⟨?_, ?_, ?_⟩
        · rw [setStatus_error]
          simpa using h1
        · rw [setStatus_status]
          simp
        · intro hb0
          simp only [Except.ok.injEq] at hb
          rw [← hb] at hb0
          simp at hb0
    | false =>
      simp only [hL, Bool.false_eq_true, reduceIte]
      constructor
      · intro e he
        simp at he
      · intro b hb
        refine ⟨by simpa using h1, ?_, fun _ => ?_⟩
        · show ¬ A.s.status = ChunkUploaderStatus.error
          rcases h2 with h | h <;> simp [h]
        · show A.s.status = ChunkUploaderStatus.uploading ∨
            A.s.status = ChunkUploaderStatus.pausing
          exact h2

lemma startLoop_inv (sched : Sched) (env : Env) :
    ∀ (fuel : Nat) (s : ChunkUploader) (call sp : Nat),
      s.status = ChunkUploaderStatus.uploading → s.error = none →
      invOut (startUploadFromCurrentPosition sched env fuel s call sp) = true := by
  intro fuel
  induction fuel with
  | zero => intro s call sp _ _; simp [startUploadFromCurrentPosition, invOut]
  | succ n ih =>
    intro s call sp hst herr
    obtain ⟨huT, huB⟩ := uploadNextChunk_inv sched env s call sp hst herr
    rw [startUploadFromCurrentPosition]
    cases hres : (uploadNextChunk sched env s call sp).1 with
    | error e =>
      obtain ⟨h1, h2⟩ := huT e hres
      simp [hres, invOut, errInv, h1, h2]
    | ok b =>
      obtain ⟨h1, h2, h3⟩ := huB b hres
      simp only [hres]
      by_cases hpz : (uploadNextChunk sched env s call sp).2.1.status =
          ChunkUploaderStatus.pausing
      · simp only [hpz, reduceIte]
        simp [invOut, errInv, setStatus_status, setStatus_error, h1]
      · simp only [hpz, if_false, Bool.false_eq_true, reduceIte]
        cases b with
        | true => simp [invOut, errInv, h1, h2]
        | false =>
          have hup : (uploadNextChunk sched env s call sp).2.1.status =
              ChunkUploaderStatus.uploading := by tauto
          have hrec := ih (uploadNextChunk sched env s call sp).2.1
            (uploadNextChunk sched env s call sp).2.2.2.1
            (uploadNextChunk sched env s call sp).2.2.2.2 hup h1
          cases hx : startUploadFromCurrentPosition sched env n
              (uploadNextChunk sched env s call sp).2.1
              (uploadNextChunk sched env s call sp).2.2.2.1
              (uploadNextChunk sched env s call sp).2.2.2.2 with
          | none => simp [invOut]
          | some o =>
            rw [hx] at hrec
            simpa [invOut] using hrec


/-- Claim C9, counterexample: the claim says `lastError` is defined iff the
status is `error` at every observable point including inside every callback.
Two observable points violate it.  (1) On exhausted retries the source runs
`this.status = 'error'` — firing `onStatusChange` — *before* `this._error =
error`: the trace of a failing chunk contains `statusChange (uploading →
error)` with error snapshot `none`, i.e. inside that callback the status is
`error` but `lastError` is still undefined.  (2) `resume()` from `error` sets
`this.status = 'uploading'` — firing `onStatusChange` — before clearing
`_error`: the first trace event carries snapshot `some 5` while the new
status is `uploading`. -/
theorem c9_counterexample :
    (uploadNextChunk (failThen [5]) noPause
        ⟨ChunkUploaderStatus.uploading, 0, false, none, 4, 5, []⟩ 0 0 =
      (Except.error 5,
        ⟨ChunkUploaderStatus.error, 0, false, some 5, 4, 5, []⟩,
        [Event.chunkUpload 0 4 0 4 true 0 4,
         Event.statusChange (some ChunkUploaderStatus.uploading)
           ChunkUploaderStatus.error none,
         Event.errorCb 5], 1, 1)) ∧
    (ChunkUploader.resume allOk noPause 2
        ⟨ChunkUploaderStatus.error, 0, false, some 5, 4, 5, []⟩ =
      (true,
        ⟨ChunkUploaderStatus.complete, 4, false, none, 4, 5, []⟩,
        [Event.statusChange (some ChunkUploaderStatus.error)
           ChunkUploaderStatus.uploading (some 5),
         Event.chunkUpload 0 4 0 4 true 0 4,
         Event.statusChange (some ChunkUploaderStatus.uploading)
           ChunkUploaderStatus.complete none,
         Event.chunkComplete 4 4,
         Event.successCb])) := by
  decide

/-- Claim C9, amended: the invariant "`lastError` is defined iff the status is
`error`" holds of every state in which the machine comes to rest: it holds of
the state produced by each public operation applied to any state satisfying
it, and of the final state of the chunk loop started from a clean `uploading`
state, for every transport schedule and pause interleaving.  It does not hold
inside the `onStatusChange` callback on the two edges touching `error` (see
the counterexample), where the status has been assigned but `_error` has not
yet been updated. -/
theorem c9_errInv_preserved (st : ChunkUploaderStatus) (p total c e : Nat)
    (f : Bool) (ds : List Nat) (sched : Sched) (env : Env)
    (fuel call sp : Nat) :
    (let s : ChunkUploader :=
       ⟨st, p, f, (if st = ChunkUploaderStatus.error then some e else none),
         total, c, ds⟩
     errInv s = true ∧
     errInv (ChunkUploader.start sched env fuel s).2.1 = true ∧
     errInv (ChunkUploader.pause s).2.1 = true ∧
     errInv (ChunkUploader.resume sched env fuel s).2.1 = true ∧
     errInv (ChunkUploader.abort s).2.1 = true) ∧
    invOut (startUploadFromCurrentPosition sched env fuel
      ⟨ChunkUploaderStatus.uploading, p, f, none, total, c, ds⟩ call sp) =
      true := by
  constructor
  · intro s
    have hloop : ∀ (s2 : ChunkUploader) (o : LoopOut),
        s2.status = ChunkUploaderStatus.uploading → s2.error = none →
        startUploadFromCurrentPosition sched env fuel s2 0 0 = some o →
        errInv o.s = true := by
      intro s2 o h1 h2 hx
      have := startLoop_inv sched env fuel s2 0 0 h1 h2
      rw [hx] at this
      simpa [invOut] using this
    refine ⟨?_, ?_, ?_, ?_, ?_⟩
    · cases st <;> simp [s, errInv]
    · cases st <;>
        simp only [s, ChunkUploader.start, setStatus, reduceCtorEq, reduceIte,
          if_true, if_false] <;>
        first
          | (cases hx : startUploadFromCurrentPosition sched env fuel
              ⟨ChunkUploaderStatus.uploading, p, f, none, total, c, ds⟩ 0 0 with
             | none => simp [errInv]
             | some o => simp only []; exact hloop _ o rfl rfl hx)
          | simp [errInv]
    · cases st <;> cases hf : f <;>
        simp [s, ChunkUploader.pause, setStatus, errInv, hf]
    · cases st <;>
        simp only [s, ChunkUploader.resume, setStatus, reduceCtorEq,
          reduceIte, if_true, if_false] <;>
        first
          | (cases hx : startUploadFromCurrentPosition sched env fuel
              ⟨ChunkUploaderStatus.uploading, p, f, none, total, c, ds⟩ 0 0 with
             | none => simp [errInv]
             | some o => simp only []; exact hloop _ o rfl rfl hx)
          | simp [errInv]
    · cases st <;> simp [s, ChunkUploader.abort, setStatus, errInv]
  · exact startLoop_inv sched env fuel
      ⟨ChunkUploaderStatus.uploading, p, f, none, total, c, ds⟩ call sp rfl rfl

end ChunkUpload
